import Mathlib

/-!
Verification of the EntglDb.NodeJs synchronization core against its
natural-language specification.

The definitions below are shallow embeddings of the TypeScript source:

* `HLCTimestamp`, `compareHLCTimestamps` — packages/protocol/src (domain.ts,
  index.ts).  `logicalTime` is a *string* in the source (produced by
  `Date.now().toString()`), and `compareHLCTimestamps` compares it with the
  JavaScript `<` / `>` operators, i.e. lexicographically by UTF-16 code
  units; we model that with Lean's lexicographic `String` order.
* `HLClockState.update` — packages/core/src/hlc/clock.ts.  `Date.now()` is
  passed in explicitly as the `pt` argument.
* further components are embedded further down, each documented in place.
-/

namespace EntglDb

/-- Hybrid logical clock timestamp as defined in packages/protocol:
`logicalTime` is a decimal string, `counter` a number, `nodeId` a string. -/
structure HLCTimestamp where
  logicalTime : String
  counter : Nat
  nodeId : String
deriving DecidableEq, Repr

/-- Lexicographic comparison of character lists; models the JavaScript `<`
operator on strings (code-unit lexicographic, which agrees with this
code-point order on the identifiers and decimal strings the system uses)
as well as SQLite's BINARY collation on TEXT columns. -/
def charListLt : List Char → List Char → Bool
  | [], [] => false
  | [], _ :: _ => true
  | _ :: _, [] => false
  | a :: as, b :: bs =>
    if a < b then true
    else if b < a then false
    else charListLt as bs

/-- JavaScript string `<`, on the underlying character sequences. -/
def strLt (a b : String) : Bool :=
  charListLt a.data b.data

/-- Model of JavaScript `String.prototype.localeCompare` restricted to the
code-unit order (regular ASCII identifiers), returning -1 / 0 / 1. -/
def stringCompareInt (a b : String) : Int :=
  if strLt a b then -1 else if strLt b a then 1 else 0

/-- packages/protocol/src/index.ts `compareHLCTimestamps`: the JavaScript
`<`/`>` on the string field `logicalTime` (lexicographic), then `counter`,
then `nodeId.localeCompare`. -/
def compareHLCTimestamps (a b : HLCTimestamp) : Int :=
  if strLt a.logicalTime b.logicalTime then -1
  else if strLt b.logicalTime a.logicalTime then 1
  else if a.counter < b.counter then -1
  else if b.counter < a.counter then 1
  else stringCompareInt a.nodeId b.nodeId

/-- Numeric value of a decimal string; models `BigInt(s)` on the digit
strings produced by `Date.now().toString()`. -/
def decValue (s : String) : Nat :=
  s.data.foldl (fun n c => n * 10 + (c.toNat - 48)) 0

/-- One step of the `reduce` inside `HLClock.max`:
`BigInt(current) > BigInt(max) ? current : max`. -/
def hlcMaxStr (m c : String) : String :=
  if decValue m < decValue c then c else m

/-- Mutable state of `HLClock` (packages/core/src/hlc/clock.ts): the node id
plus the `logicalTime` / `counter` fields (initially '0' and 0). -/
structure HLClockState where
  nodeId : String
  logicalTime : String
  counter : Nat
deriving DecidableEq, Repr

/-- `HLClock.update(received)` from packages/core/src/hlc/clock.ts with the
`Date.now().toString()` reading passed in as `pt`.  The branch cascade is
transcribed in source order; `===` on strings is string equality, and
`this.max(...)` is the `reduce` with `BigInt` comparison modelled by
`hlcMaxStr`.  Returns the new clock state together with the returned stamp. -/
def HLClockState.update (st : HLClockState) (pt : String) (received : HLCTimestamp) :
    HLClockState × HLCTimestamp :=
  let maxLogical := hlcMaxStr (hlcMaxStr pt st.logicalTime) received.logicalTime
  let counter :=
    if maxLogical = pt ∧ pt = st.logicalTime then st.counter + 1
    else if maxLogical = pt ∧ pt = received.logicalTime then received.counter + 1
    else if maxLogical = st.logicalTime ∧ st.logicalTime = received.logicalTime then
      max st.counter received.counter + 1
    else if maxLogical = st.logicalTime then st.counter + 1
    else if maxLogical = received.logicalTime then received.counter + 1
    else 0
  ({ st with logicalTime := maxLogical, counter := counter },
   { logicalTime := maxLogical, counter := counter, nodeId := st.nodeId })

/-- C2: the claim states that `update(x)` always returns a stamp strictly
greater than `x` under `compare`, and that when the wallclock reading, the
local `logicalTime` and `x.logicalTime` are all equal the new counter is
`max(localCounter, x.counter) + 1`.  The code takes its first branch
(`maxL === pt && pt === logicalTime`) in that situation, never consulting
`x.counter`: with local state (logicalTime 100, counter 0, nodeId A),
wallclock 100 and remote stamp (100, 5, B) it returns (100, 1, A), whose
counter is 1 rather than max(0,5)+1 = 6 and which is strictly *smaller*
than the remote stamp under `compareHLCTimestamps`. -/
theorem hlc_update_all_equal_branch_bug :
    (HLClockState.update ⟨"A", "100", 0⟩ "100" ⟨"100", 5, "B"⟩).2.counter = 1 ∧
    compareHLCTimestamps
      (HLClockState.update ⟨"A", "100", 0⟩ "100" ⟨"100", 5, "B"⟩).2
      ⟨"100", 5, "B"⟩ = -1 := by
  decide

/-! ### JSON values and the domain entry/document shapes -/

/-- Dynamic JSON value, the shape handled by the conflict resolvers.
Numbers are modelled as integers (all ids and values used by the claims
are integral). -/
inductive Json where
  | null
  | bool (b : Bool)
  | num (n : Int)
  | str (s : String)
  | arr (items : List Json)
  | obj (fields : List (String × Json))
deriving Repr

/-- Domain oplog entry (packages/protocol `OplogEntry`): `data` is the byte
array, `operation` is the string 'put' or 'delete'.  The `timestamp` field
is optional in the TypeScript declaration, but every call site relevant to
the claims builds entries through `ProtocolMapper.toDomainOplogEntry` or
`OplogEntry.create` with a timestamp, so it is modelled as present. -/
structure OplogEntry where
  collection : String
  key : String
  data : List Nat
  timestamp : HLCTimestamp
  operation : String
deriving DecidableEq, Repr

/-- The document value built by the conflict resolvers
(`{collection, key, content, updatedAt, isDeleted}`). -/
structure ResolvedDoc where
  collection : String
  key : String
  content : Json
  updatedAt : HLCTimestamp
  isDeleted : Bool

/-- `ConflictResolutionResult` from packages/core/src/sync/conflict-resolver.ts. -/
structure ConflictResolutionResult where
  shouldApply : Bool
  mergedDocument : Option ResolvedDoc

/-- `ConflictResolutionResult.apply`. -/
def ConflictResolutionResult.applyDoc (d : ResolvedDoc) : ConflictResolutionResult :=
  ⟨true, some d⟩

/-- `ConflictResolutionResult.ignore`. -/
def ConflictResolutionResult.ignoreDoc : ConflictResolutionResult :=
  ⟨false, none⟩

/-! ### Last-write-wins resolver (packages/core/src/sync/last-write-wins-resolver.ts) -/

/-- JavaScript `undefined > undefined` (and `undefined < undefined`): both
are `false`, because `undefined` converts to `NaN` and every relational
comparison with `NaN` is false. -/
def undefinedRelUndefined : Bool := false

/-- `compareTimestamps` from last-write-wins-resolver.ts (the identical
private copy also appears in recursive-merge-resolver.ts).  The source
reads `a.wallTime` / `b.wallTime`, fields that do **not** exist on the
protocol `HLCTimestamp` (whose first field is named `logicalTime`), so in
JavaScript both wallTime guards compare `undefined` with `undefined` and
never fire; the comparison effectively starts at `counter`. -/
def compareTimestampsWallTime (a b : HLCTimestamp) : Int :=
  if undefinedRelUndefined then 1
  else if undefinedRelUndefined then -1
  else if b.counter < a.counter then 1
  else if a.counter < b.counter then -1
  else stringCompareInt a.nodeId b.nodeId

/-- `LastWriteWinsConflictResolver.resolve`.  `parse` abstracts
`JSON.parse(Buffer.from(data).toString('utf-8'))`; `remote.data` is always
present after `OplogEntry.create`, hence always truthy in the source's
ternary (a `Uint8Array` is an object and objects are truthy). -/
def lwwResolve (parse : List Nat → Json) (localDoc : Option ResolvedDoc)
    (remote : OplogEntry) : ConflictResolutionResult :=
  match localDoc with
  | none =>
    ConflictResolutionResult.applyDoc
      { collection := remote.collection
        key := remote.key
        content := parse remote.data
        updatedAt := remote.timestamp
        isDeleted := remote.operation = "delete" }
  | some doc =>
    if 0 < compareTimestampsWallTime remote.timestamp doc.updatedAt then
      ConflictResolutionResult.applyDoc
        { collection := remote.collection
          key := remote.key
          content := parse remote.data
          updatedAt := remote.timestamp
          isDeleted := remote.operation = "delete" }
    else
      ConflictResolutionResult.ignoreDoc

/-- C5: the claim states that with an existing local document,
`LastWriteWinsConflictResolver.resolve` returns APPLY iff the remote
timestamp is strictly greater under the lexicographic order
(logicalTime, counter, nodeId) — and IGNORE otherwise.  The comparator
actually reads the nonexistent `wallTime` field, so `logicalTime` is
ignored: with local timestamp (200, 0, A) and remote timestamp (100, 1, B)
the remote is lexicographically *smaller* (`compareHLCTimestamps = -1`,
so the claim demands IGNORE) yet the code APPLIES it because its counter
is larger. -/
theorem lww_resolve_ignores_logicalTime :
    (lwwResolve (fun _ => Json.null)
        (some { collection := "users", key := "alice", content := Json.obj []
                updatedAt := ⟨"200", 0, "A"⟩, isDeleted := false })
        { collection := "users", key := "alice", data := []
          timestamp := ⟨"100", 1, "B"⟩, operation := "put" }).shouldApply = true ∧
    compareHLCTimestamps ⟨"100", 1, "B"⟩ ⟨"200", 0, "A"⟩ = -1 := by
  decide

/-! ### SQLite peer store (SqlitePeerStore, persistence-sqlite package)

The `documents` table has PRIMARY KEY (collection, key); `logical_time` and
`node_id` are TEXT columns, so SQLite compares them with the BINARY
collation (bytewise, modelled by `charListLt`); `counter` is INTEGER. -/

/-- A row of the `documents` table.  The redundant serialized `timestamp`
TEXT column (always `HLClock.toString` of the same triple) is not modelled
separately. -/
structure DocRow where
  collection : String
  key : String
  data : List Nat
  ts : HLCTimestamp
  tombstone : Bool
deriving DecidableEq, Repr

/-- A row of the `oplog` table. -/
structure OplogRow where
  collection : String
  key : String
  data : List Nat
  operation : String
  ts : HLCTimestamp
deriving DecidableEq, Repr

/-- The mutable state of a `SqlitePeerStore`. -/
structure PeerStore where
  documents : List DocRow
  oplog : List OplogRow
  collections : List String
deriving DecidableEq, Repr

/-- The store with empty tables (state right after `initialize`). -/
def emptyPeerStore : PeerStore := ⟨[], [], []⟩

/-- Strict HLC comparison used by the store's SQL:
`(logical_time > ?) OR (logical_time = ? AND counter > ?) OR
 (logical_time = ? AND counter = ? AND node_id > ?)` — the string columns
under BINARY collation, `counter` numerically. -/
def hlcLtB (a b : HLCTimestamp) : Bool :=
  strLt a.logicalTime b.logicalTime ||
    (a.logicalTime == b.logicalTime &&
      (a.counter < b.counter ||
        (a.counter == b.counter && strLt a.nodeId b.nodeId)))

/-- Reflexive closure of `hlcLtB` (equal triples compare equal in the
`ORDER BY`). -/
def hlcLeB (a b : HLCTimestamp) : Bool :=
  hlcLtB a b || a == b

/-- `INSERT ... ON CONFLICT(collection, key) DO UPDATE SET ...`: replace
the row with the same identity if present, else append. -/
def upsertDoc (docs : List DocRow) (d : DocRow) : List DocRow :=
  if docs.any (fun r => r.collection == d.collection && r.key == d.key) then
    docs.map (fun r =>
      if r.collection == d.collection && r.key == d.key then d else r)
  else
    docs ++ [d]

/-- `SqlitePeerStore.putDocument`: one transaction that upserts the
document row, registers the collection, and appends one oplog row whose
`operation` is 'delete' for a tombstone and 'put' otherwise. -/
def PeerStore.putDocument (s : PeerStore) (d : DocRow) : PeerStore :=
  { documents := upsertDoc s.documents d
    oplog := s.oplog ++
      [{ collection := d.collection, key := d.key, data := d.data
         operation := if d.tombstone then "delete" else "put", ts := d.ts }]
    collections :=
      if s.collections.contains d.collection then s.collections
      else s.collections ++ [d.collection] }

/-- `SqlitePeerStore.deleteDocument`: `putDocument` of a tombstone with
empty data. -/
def PeerStore.deleteDocument (s : PeerStore) (c k : String) (ts : HLCTimestamp) :
    PeerStore :=
  s.putDocument { collection := c, key := k, data := [], ts := ts, tombstone := true }

/-- `SqlitePeerStore.applyBatch(docs, oplog)`: one transaction running
`putDocument` for each doc.  The `oplog` argument is accepted but never
used by the source. -/
def PeerStore.applyBatch (s : PeerStore) (docs : List DocRow)
    (oplogArg : List OplogRow) : PeerStore :=
  let _ := oplogArg
  docs.foldl PeerStore.putDocument s

/-- `SqlitePeerStore.getDocument`: the row with the given identity. -/
def PeerStore.getDocument (s : PeerStore) (c k : String) : Option DocRow :=
  s.documents.find? (fun r => r.collection == c && r.key == k)

/-- States reachable from the empty store through `putDocument`,
`deleteDocument` and `applyBatch` calls with arbitrary arguments. -/
inductive PeerStore.Reachable : PeerStore → Prop where
  | empty : PeerStore.Reachable emptyPeerStore
  | put {s : PeerStore} (d : DocRow) :
      PeerStore.Reachable s → PeerStore.Reachable (s.putDocument d)
  | del {s : PeerStore} (c k : String) (ts : HLCTimestamp) :
      PeerStore.Reachable s → PeerStore.Reachable (s.deleteDocument c k ts)
  | batch {s : PeerStore} (docs : List DocRow) (ops : List OplogRow) :
      PeerStore.Reachable s → PeerStore.Reachable (s.applyBatch docs ops)

/-- The identity of a document row. -/
def DocRow.identity (r : DocRow) : String × String :=
  (r.collection, r.key)

/-- First half of the C6 invariant: at most one document row per
(collection, key) identity. -/
def uniqueIdentity (s : PeerStore) : Prop :=
  (s.documents.map DocRow.identity).Nodup

/-- Second half of the C6 claim as stated: every row's timestamp dominates
every oplog entry with the same identity. -/
def docTsDominatesOplog (s : PeerStore) : Prop :=
  ∀ r ∈ s.documents, ∀ e ∈ s.oplog,
    e.collection = r.collection → e.key = r.key → hlcLtB r.ts e.ts = false

/-- Weakened second half that actually holds: every row's timestamp is the
timestamp of some oplog entry with the same identity. -/
def docTsWitnessed (s : PeerStore) : Prop :=
  ∀ r ∈ s.documents, ∃ e ∈ s.oplog,
    e.collection = r.collection ∧ e.key = r.key ∧ e.ts = r.ts

/-- The two-put state refuting the C6 claim: a put with timestamp
(100, 5, A) followed by a put of the same identity with the older
timestamp (100, 3, A). -/
def c6State : PeerStore :=
  (emptyPeerStore.putDocument
      { collection := "c", key := "k", data := [], ts := ⟨"100", 5, "A"⟩
        tombstone := false }).putDocument
    { collection := "c", key := "k", data := [], ts := ⟨"100", 3, "A"⟩
      tombstone := false }

/-- C6 counterexample: `c6State` is reachable (two `putDocument` calls),
yet its single document row carries timestamp (100, 3, A) while the oplog
holds an entry of the same identity with the strictly larger timestamp
(100, 5, A) — `putDocument` upserts unconditionally, with no timestamp
guard. -/
theorem store_doc_ts_not_dominating :
    PeerStore.Reachable c6State ∧ ¬ docTsDominatesOplog c6State := by
  constructor
  · exact PeerStore.Reachable.put _ (PeerStore.Reachable.put _ PeerStore.Reachable.empty)
  · intro h
    have h5 := h { collection := "c", key := "k", data := [], ts := ⟨"100", 3, "A"⟩
                   tombstone := false }
      (by decide)
      { collection := "c", key := "k", data := [], operation := "put", ts := ⟨"100", 5, "A"⟩ }
      (by decide) rfl rfl
    revert h5
    decide

lemma identity_upsert_replace {r d : DocRow}
    (h : (r.collection == d.collection && r.key == d.key) = true) :
    d.identity = r.identity := by
  simp only [Bool.and_eq_true, beq_iff_eq] at h
  simp [DocRow.identity, h.1, h.2]

lemma map_identity_upsert (docs : List DocRow) (d : DocRow) :
    (upsertDoc docs d).map DocRow.identity =
      if docs.any (fun r => r.collection == d.collection && r.key == d.key)
      then docs.map DocRow.identity
      else docs.map DocRow.identity ++ [d.identity] := by
  unfold upsertDoc
  split
  · rw [List.map_map]
    apply List.map_congr_left
    intro r _
    simp only [Function.comp_apply]
    by_cases h : (r.collection == d.collection && r.key == d.key) = true
    · simp [h, identity_upsert_replace h]
    · simp [h]
  · simp

lemma mem_upsert {r d : DocRow} {docs : List DocRow}
    (h : r ∈ upsertDoc docs d) : r = d ∨ r ∈ docs := by
  unfold upsertDoc at h
  split at h
  · obtain ⟨x, hx, hr⟩ := List.mem_map.mp h
    by_cases hc : (x.collection == d.collection && x.key == d.key) = true
    · rw [hc] at hr
      simp at hr
      exact Or.inl hr.symm
    · rw [if_neg hc] at hr
      exact Or.inr (hr ▸ hx)
  · rcases List.mem_append.mp h with h1 | h1
    · exact Or.inr h1
    · exact Or.inl (List.mem_singleton.mp h1)

lemma uniqueIdentity_putDocument {s : PeerStore} (d : DocRow)
    (h : uniqueIdentity s) : uniqueIdentity (s.putDocument d) := by
  unfold uniqueIdentity PeerStore.putDocument at *
  simp only [map_identity_upsert]
  split
  · exact h
  case isFalse hany =>
    rw [List.nodup_append]
    refine ⟨h, List.nodup_singleton _, ?_⟩
    intro x hx
    simp only [List.mem_singleton]
    intro hxe
    obtain ⟨r, hr, hid⟩ := List.mem_map.mp hx
    rw [Bool.not_eq_true, List.any_eq_false] at hany
    have := hany r hr
    simp only [Bool.and_eq_true, beq_iff_eq, not_and_or] at this
    have : r.identity ≠ d.identity := by
      intro hEq
      simp only [DocRow.identity, Prod.mk.injEq] at hEq
      rcases this with h1 | h1 <;> exact h1 (by simp [hEq.1, hEq.2])
    exact this (hid.trans hxe)

lemma docTsWitnessed_putDocument {s : PeerStore} (d : DocRow)
    (h : docTsWitnessed s) : docTsWitnessed (s.putDocument d) := by
  intro r hr
  rcases mem_upsert hr with hEq | hMem
  · subst hEq
    refine ⟨{ collection := r.collection, key := r.key, data := r.data
              operation := if r.tombstone then "delete" else "put", ts := r.ts }, ?_, rfl, rfl, rfl⟩
    simp [PeerStore.putDocument]
  · obtain ⟨e, he, hprop⟩ := h r hMem
    exact ⟨e, by simp [PeerStore.putDocument, List.mem_append, he], hprop⟩

lemma inv_putDocument {s : PeerStore} (d : DocRow)
    (h : uniqueIdentity s ∧ docTsWitnessed s) :
    uniqueIdentity (s.putDocument d) ∧ docTsWitnessed (s.putDocument d) :=
  ⟨uniqueIdentity_putDocument d h.1, docTsWitnessed_putDocument d h.2⟩

lemma inv_foldl_putDocument (docs : List DocRow) {s : PeerStore}
    (h : uniqueIdentity s ∧ docTsWitnessed s) :
    uniqueIdentity (docs.foldl PeerStore.putDocument s) ∧
      docTsWitnessed (docs.foldl PeerStore.putDocument s) := by
  induction docs generalizing s with
  | nil => exact h
  | cons d rest ih => exact ih (inv_putDocument d h)

/-- C6 (amended): in every store state reachable through `putDocument`,
`deleteDocument` and `applyBatch` calls, each (collection, key) identity
has exactly one document row, and that row's timestamp is the timestamp of
*some* oplog entry with the same identity (rather than an upper bound of
all of them: `putDocument` upserts with no timestamp guard, so an older
put can lower the row's timestamp below an existing oplog entry's, as the
counterexample shows). -/
theorem store_identity_unique_and_ts_witnessed (s : PeerStore)
    (h : PeerStore.Reachable s) : uniqueIdentity s ∧ docTsWitnessed s := by
  induction h with
  | empty =>
    constructor
    · simp [uniqueIdentity, emptyPeerStore]
    · intro r hr
      simp [emptyPeerStore] at hr
  | put d _ ih => exact inv_putDocument d ih
  | del c k ts _ ih => exact inv_putDocument _ ih
  | batch docs ops _ ih => exact inv_foldl_putDocument docs ih

/-- Witness for the amended C6 theorem at the concrete reachable state
`c6State`. -/
theorem store_identity_unique_and_ts_witnessed_witness :
    uniqueIdentity c6State ∧ docTsWitnessed c6State :=
  store_identity_unique_and_ts_witnessed c6State
    (PeerStore.Reachable.put _ (PeerStore.Reachable.put _ PeerStore.Reachable.empty))

/-! ### Sync server push handler (packages/network/src/tcp-server.ts,
`TcpSyncServer.handlePushRequest`) -/

/-- The `AckResponse` sent back after a push. -/
structure AckResponse where
  success : Bool
deriving DecidableEq, Repr

/-- The document built from a pushed entry inside `handlePushRequest`:
`{collection, key, data, timestamp, tombstone: operation === 'delete'}`. -/
def toDocRow (e : OplogEntry) : DocRow :=
  { collection := e.collection, key := e.key, data := e.data, ts := e.timestamp
    tombstone := e.operation == "delete" }

/-- Oplog-table view of a domain entry (the `applyBatch` second argument). -/
def toOplogRow (e : OplogEntry) : OplogRow :=
  ⟨e.collection, e.key, e.data, e.operation, e.timestamp⟩

/-- `TcpSyncServer.handlePushRequest`: update the HLC with every entry
timestamp (each entry has one after `ProtocolMapper.toDomainOplogEntry`),
map the entries directly to documents, apply via `store.applyBatch`, and
reply `AckResponse{success: true}`.  All clock updates within one request
are modelled with a single wallclock reading `pt`.  No conflict resolver
is consulted anywhere on this path. -/
def handlePushRequest (clock : HLClockState) (pt : String) (store : PeerStore)
    (entries : List OplogEntry) : HLClockState × PeerStore × AckResponse :=
  let clock2 := entries.foldl (fun c e => (c.update pt e.timestamp).1) clock
  let docs := entries.map toDocRow
  let store2 := store.applyBatch docs (entries.map toOplogRow)
  (clock2, store2, ⟨true⟩)

/-- The local-document view a resolver would receive for a stored row. -/
def docRowToResolver (parse : List Nat → Json) (r : DocRow) : ResolvedDoc :=
  ⟨r.collection, r.key, parse r.data, r.ts, r.tombstone⟩

/-- Modelled from the spec (§4.4 Push): the push receiver should resolve
each entry against the current document state through the (default LWW)
conflict resolver and apply the results via `store.applyBatch`.  No such
resolver call exists in the source; this definition exists only to compare
the handler against the spec's words. -/
def pushResolvedSpec (parse : List Nat → Json) (store : PeerStore)
    (entries : List OplogEntry) : PeerStore :=
  store.applyBatch
    ((entries.filter (fun e =>
        (lwwResolve parse ((store.getDocument e.collection e.key).map
          (docRowToResolver parse)) e).shouldApply)).map toDocRow)
    (entries.map toOplogRow)

/-- Store holding one document at timestamp (100, 5, A). -/
def c1Store : PeerStore :=
  emptyPeerStore.putDocument
    { collection := "c", key := "k", data := [], ts := ⟨"100", 5, "A"⟩
      tombstone := false }

/-- A pushed entry older than the stored document. -/
def c1Entry : OplogEntry :=
  { collection := "c", key := "k", data := [], timestamp := ⟨"100", 3, "B"⟩
    operation := "put" }

/-- C1 counterexample: pushing an entry with timestamp (100, 3, B) onto a
store whose document for the same identity has the strictly larger
timestamp (100, 5, A).  The handler overwrites the document with the older
entry, while the resolver-mediated application the claim describes would
leave the newer document in place: the handler does not resolve entries
against the current document state. -/
theorem push_handler_overwrites_newer_doc :
    (handlePushRequest ⟨"S", "0", 0⟩ "100" c1Store [c1Entry]).2.1.getDocument "c" "k" =
      some (toDocRow c1Entry) ∧
    (pushResolvedSpec (fun _ => Json.null) c1Store [c1Entry]).getDocument "c" "k" =
      some { collection := "c", key := "k", data := [], ts := ⟨"100", 5, "A"⟩
             tombstone := false } ∧
    hlcLtB c1Entry.timestamp ⟨"100", 5, "A"⟩ = true := by
  decide

lemma beq_self_identity (d : DocRow) :
    (d.collection == d.collection && d.key == d.key) = true := by simp

lemma find?_upsert_self (docs : List DocRow) (d : DocRow) :
    (upsertDoc docs d).find?
      (fun r => r.collection == d.collection && r.key == d.key) = some d := by
  unfold upsertDoc
  split
  case isTrue hany =>
    revert hany
    induction docs with
    | nil => intro hany; simp at hany
    | cons x xs ih =>
      intro hany
      simp only [List.map_cons]
      by_cases hx : (x.collection == d.collection && x.key == d.key) = true
      · rw [if_pos hx]
        exact List.find?_cons_of_pos _ (beq_self_identity d)
      · rw [if_neg hx, List.find?_cons_of_neg _ (by simp [hx])]
        apply ih
        simp only [List.any_cons, hx, Bool.false_or] at hany
        exact hany
  case isFalse hany =>
    rw [Bool.not_eq_true, List.any_eq_false] at hany
    have hnone : docs.find?
        (fun r => r.collection == d.collection && r.key == d.key) = none := by
      rw [List.find?_eq_none]
      intro x hx
      simp [hany x hx]
    rw [List.find?_append, hnone, Option.none_or]
    exact List.find?_cons_of_pos _ (beq_self_identity d)

lemma find?_upsert_other (docs : List DocRow) (d : DocRow) (c k : String)
    (h : ¬ (c = d.collection ∧ k = d.key)) :
    (upsertDoc docs d).find? (fun r => r.collection == c && r.key == k) =
      docs.find? (fun r => r.collection == c && r.key == k) := by
  have hd : (d.collection == c && d.key == k) = false := by
    by_contra hcon
    rw [Bool.not_eq_false, Bool.and_eq_true, beq_iff_eq, beq_iff_eq] at hcon
    exact h ⟨hcon.1.symm, hcon.2.symm⟩
  unfold upsertDoc
  split
  case isTrue hany =>
    clear hany
    induction docs with
    | nil => simp
    | cons x xs ih =>
      simp only [List.map_cons]
      by_cases hx : (x.collection == d.collection && x.key == d.key) = true
      · have hpx : (x.collection == c && x.key == k) = false := by
          simp only [Bool.and_eq_true, beq_iff_eq] at hx
          rw [hx.1, hx.2]
          exact hd
        rw [if_pos hx, List.find?_cons_of_neg _ (by simp [hd]),
          List.find?_cons_of_neg _ (by simp [hpx])]
        exact ih
      · rw [if_neg hx]
        by_cases hpx : (x.collection == c && x.key == k) = true
        · have hpx2 : (fun (r : DocRow) => r.collection == c && r.key == k) x = true := hpx
          trans (some x)
          · exact List.find?_cons_of_pos _ hpx2
          · symm
            exact List.find?_cons_of_pos _ hpx2
        · rw [List.find?_cons_of_neg _ (by simp [hpx]),
            List.find?_cons_of_neg _ (by simp [hpx])]
          exact ih
  case isFalse hany =>
    rw [List.find?_append]
    have hone : (([d] : List DocRow).find? (fun r => r.collection == c && r.key == k)) = none := by
      simp [hd]
    rw [hone, Option.or_none]

lemma getDocument_putDocument_self (s : PeerStore) (d : DocRow) :
    (s.putDocument d).getDocument d.collection d.key = some d :=
  find?_upsert_self s.documents d

lemma getDocument_putDocument_other (s : PeerStore) (d : DocRow) (c k : String)
    (h : ¬ (c = d.collection ∧ k = d.key)) :
    (s.putDocument d).getDocument c k = s.getDocument c k :=
  find?_upsert_other s.documents d c k h

lemma getDocument_foldl_no_match (docs : List DocRow) (s : PeerStore) (c k : String)
    (h : ∀ x ∈ docs, ¬ (c = x.collection ∧ k = x.key)) :
    (docs.foldl PeerStore.putDocument s).getDocument c k = s.getDocument c k := by
  induction docs generalizing s with
  | nil => rfl
  | cons x xs ih =>
    simp only [List.foldl_cons]
    rw [ih _ (fun y hy => h y (List.mem_cons_of_mem x hy)),
      getDocument_putDocument_other s x c k (h x (List.mem_cons_self x xs))]

/-- C1 (amended): for every push batch, the server replies
`AckResponse{success: true}`, folds `HLClock.update` over every entry
timestamp, and applies the entries *directly* (tombstone iff the operation
is 'delete') via `store.applyBatch` without consulting any conflict
resolver: the stored document for an identity ends up equal to the last
pushed entry for that identity regardless of the timestamps involved. -/
theorem push_handler_applies_last_entry (clock : HLClockState) (pt : String)
    (store : PeerStore) (l1 l2 : List OplogEntry) (e : OplogEntry)
    (h2 : ∀ x ∈ l2, ¬ (e.collection = x.collection ∧ e.key = x.key)) :
    (handlePushRequest clock pt store (l1 ++ e :: l2)).2.2.success = true ∧
    (handlePushRequest clock pt store (l1 ++ e :: l2)).2.1.getDocument
      e.collection e.key = some (toDocRow e) ∧
    (handlePushRequest clock pt store (l1 ++ e :: l2)).1 =
      (l1 ++ e :: l2).foldl (fun c x => (c.update pt x.timestamp).1) clock := by
  refine ⟨rfl, ?_, rfl⟩
  have hstore : (handlePushRequest clock pt store (l1 ++ e :: l2)).2.1 =
      ((l1 ++ e :: l2).map toDocRow).foldl PeerStore.putDocument store := rfl
  rw [hstore, List.map_append, List.map_cons, List.foldl_append, List.foldl_cons]
  rw [getDocument_foldl_no_match]
  · exact getDocument_putDocument_self _ (toDocRow e)
  · intro x hx
    obtain ⟨y, hy, hxy⟩ := List.mem_map.mp hx
    subst hxy
    exact h2 y hy

/-- Witness for the amended C1 theorem: a single-entry push. -/
theorem push_handler_applies_last_entry_witness :
    (handlePushRequest ⟨"S", "0", 0⟩ "100" c1Store ([] ++ c1Entry :: [])).2.2.success = true ∧
    (handlePushRequest ⟨"S", "0", 0⟩ "100" c1Store ([] ++ c1Entry :: [])).2.1.getDocument
      c1Entry.collection c1Entry.key = some (toDocRow c1Entry) ∧
    (handlePushRequest ⟨"S", "0", 0⟩ "100" c1Store ([] ++ c1Entry :: [])).1 =
      ([] ++ c1Entry :: []).foldl
        (fun (c : HLClockState) (x : OplogEntry) => (c.update "100" x.timestamp).1)
        ⟨"S", "0", 0⟩ :=
  push_handler_applies_last_entry ⟨"S", "0", 0⟩ "100" c1Store [] [] c1Entry
    (by intro x hx
        exact absurd hx (List.not_mem_nil _))

/-! ### Order facts for the string-lexicographic HLC comparison -/

lemma charListLt_trans {a b c : List Char} (hab : charListLt a b = true)
    (hbc : charListLt b c = true) : charListLt a c = true := by
  induction a generalizing b c with
  | nil =>
    cases c with
    | nil =>
      cases b with
      | nil => simp [charListLt] at hab
      | cons y ys => simp [charListLt] at hbc
    | cons z zs => simp [charListLt]
  | cons x xs ih =>
    cases b with
    | nil => simp [charListLt] at hab
    | cons y ys =>
      cases c with
      | nil => simp [charListLt] at hbc
      | cons z zs =>
        simp only [charListLt] at hab hbc ⊢
        rcases lt_trichotomy x y with hxy | hxy | hxy
        · rcases lt_trichotomy y z with hyz | hyz | hyz
          · simp [lt_trans hxy hyz]
          · subst hyz
            simp [hxy]
          · rw [if_neg (lt_asymm hyz), if_pos hyz] at hbc
            exact absurd hbc (by simp)
        · subst hxy
          rw [if_neg (lt_irrefl x), if_neg (lt_irrefl x)] at hab
          rcases lt_trichotomy x z with hyz | hyz | hyz
          · simp [hyz]
          · subst hyz
            rw [if_neg (lt_irrefl x), if_neg (lt_irrefl x)] at hbc ⊢
            exact ih hab hbc
          · rw [if_neg (lt_asymm hyz), if_pos hyz] at hbc
            exact absurd hbc (by simp)
        · rw [if_neg (lt_asymm hxy), if_pos hxy] at hab
          exact absurd hab (by simp)

lemma charListLt_connex {a b : List Char} (h1 : charListLt a b = false)
    (h2 : charListLt b a = false) : a = b := by
  induction a generalizing b with
  | nil =>
    cases b with
    | nil => rfl
    | cons y ys => simp [charListLt] at h1
  | cons x xs ih =>
    cases b with
    | nil => simp [charListLt] at h2
    | cons y ys =>
      simp only [charListLt] at h1 h2
      rcases lt_trichotomy x y with hxy | hxy | hxy
      · rw [if_pos hxy] at h1
        exact absurd h1 (by simp)
      · subst hxy
        rw [if_neg (lt_irrefl x), if_neg (lt_irrefl x)] at h1 h2
        rw [ih h1 h2]
      · rw [if_pos hxy] at h2
        exact absurd h2 (by simp)

lemma strLt_trans {a b c : String} (hab : strLt a b = true)
    (hbc : strLt b c = true) : strLt a c = true :=
  charListLt_trans hab hbc

lemma strLt_connex {a b : String} (h1 : strLt a b = false)
    (h2 : strLt b a = false) : a = b := by
  cases a with
  | mk da =>
    cases b with
    | mk db =>
      have : da = db := charListLt_connex h1 h2
      rw [this]

lemma hlcLtB_trans {a b c : HLCTimestamp} (hab : hlcLtB a b = true)
    (hbc : hlcLtB b c = true) : hlcLtB a c = true := by
  unfold hlcLtB at *
  simp only [Bool.or_eq_true, Bool.and_eq_true, beq_iff_eq, decide_eq_true_eq] at hab hbc ⊢
  rcases hab with hab | ⟨habe, hab⟩
  · rcases hbc with hbc | ⟨hbce, hbc⟩
    · exact Or.inl (strLt_trans hab hbc)
    · exact Or.inl (hbce ▸ hab)
  · rcases hbc with hbc | ⟨hbce, hbc⟩
    · exact Or.inl (habe ▸ hbc)
    · refine Or.inr ⟨habe.trans hbce, ?_⟩
      rcases hab with hab | ⟨habc, hab⟩
      · rcases hbc with hbc | ⟨hbcc, hbc⟩
        · exact Or.inl (Nat.lt_trans hab hbc)
        · exact Or.inl (hbcc ▸ hab)
      · rcases hbc with hbc | ⟨hbcc, hbc⟩
        · exact Or.inl (habc ▸ hbc)
        · exact Or.inr ⟨habc.trans hbcc, strLt_trans hab hbc⟩

lemma hlcLtB_connex {a b : HLCTimestamp} (h1 : hlcLtB a b = false)
    (h2 : hlcLtB b a = false) : a = b := by
  unfold hlcLtB at h1 h2
  cases hab : strLt a.logicalTime b.logicalTime with
  | true => rw [hab] at h1; simp at h1
  | false =>
    cases hba : strLt b.logicalTime a.logicalTime with
    | true => rw [hba] at h2; simp at h2
    | false =>
      rw [hab] at h1
      rw [hba] at h2
      have hl : a.logicalTime = b.logicalTime := strLt_connex hab hba
      rw [hl] at h1
      rw [hl] at h2
      simp only [Bool.false_or, beq_self_eq_true, Bool.true_and] at h1 h2
      cases hc1 : decide (a.counter < b.counter) with
      | true => rw [hc1] at h1; simp at h1
      | false =>
        cases hc2 : decide (b.counter < a.counter) with
        | true => rw [hc2] at h2; simp at h2
        | false =>
          have hc1n := of_decide_eq_false hc1
          have hc2n := of_decide_eq_false hc2
          have hc : a.counter = b.counter := by omega
          rw [hc1] at h1
          rw [hc2] at h2
          rw [hc] at h1
          rw [hc] at h2
          simp only [Bool.false_or, beq_self_eq_true, Bool.true_and] at h1 h2
          have hn : a.nodeId = b.nodeId := strLt_connex h1 h2
          obtain ⟨a1, a2, a3⟩ := a
          obtain ⟨b1, b2, b3⟩ := b
          simp only at hl hc hn
          rw [hl, hc, hn]

/-! ### Oplog pull (SqlitePeerStore.getOplogAfter and
TcpSyncServer.handleSyncRequest) -/

/-- The `ORDER BY logical_time, counter, node_id` row order of
`getOplogAfter` (TEXT columns under BINARY collation, `counter` numeric):
non-strict so that rows with identical timestamp triples tie. -/
def oplogRowLe (a b : OplogRow) : Prop :=
  hlcLeB a.ts b.ts = true

instance decOplogRowLe : DecidableRel oplogRowLe := fun a b =>
  instDecidableEqBool (hlcLeB a.ts b.ts) true

instance totalOplogRowLe : IsTotal OplogRow oplogRowLe where
  total a b := by
    unfold oplogRowLe hlcLeB
    cases hab : hlcLtB a.ts b.ts with
    | true => exact Or.inl (by simp)
    | false =>
      cases hba : hlcLtB b.ts a.ts with
      | true => exact Or.inr (by simp)
      | false =>
        have := hlcLtB_connex hab hba
        exact Or.inl (by simp [this])

instance transOplogRowLe : IsTrans OplogRow oplogRowLe where
  trans a b c hab hbc := by
    unfold oplogRowLe hlcLeB at *
    simp only [Bool.or_eq_true, beq_iff_eq] at hab hbc ⊢
    rcases hab with hab | hab
    · rcases hbc with hbc | hbc
      · exact Or.inl (hlcLtB_trans hab hbc)
      · exact Or.inl (hbc ▸ hab)
    · rcases hbc with hbc | hbc
      · exact Or.inl (hab ▸ hbc)
      · exact Or.inr (hab.trans hbc)

/-- `SqlitePeerStore.getOplogAfter(timestamp, limit = 100)`: the SQL
`WHERE` clause is the strict lexicographic comparison `hlcLtB since`
(string columns bytewise, counter numeric), `ORDER BY` sorts ascending by
the timestamp triple, `LIMIT` truncates. -/
def PeerStore.getOplogAfter (s : PeerStore) (since : HLCTimestamp) (limit : Nat) :
    List OplogRow :=
  (List.insertionSort oplogRowLe
    (s.oplog.filter (fun r => hlcLtB since r.ts))).take limit

/-- `PullChangesRequest` with its flattened since-timestamp fields. -/
structure PullChangesRequest where
  sinceWall : String
  sinceLogic : Nat
  sinceNode : String
deriving DecidableEq, Repr

/-- `TcpSyncServer.handleSyncRequest`: rebuild the since timestamp from the
flat fields and return `store.getOplogAfter(since, 100)` as the
`ChangeSetResponse` entry list (each entry goes through
`ProtocolMapper.toProtoOplogEntry`, which preserves order). -/
def handleSyncRequest (s : PeerStore) (req : PullChangesRequest) : List OplogRow :=
  s.getOplogAfter ⟨req.sinceWall, req.sinceLogic, req.sinceNode⟩ 100

/-- The *numeric* HLC order claimed by the spec: `logicalTime` compared as
a number, then `counter`, then `nodeId`. -/
def hlcLtNumeric (a b : HLCTimestamp) : Bool :=
  decValue a.logicalTime < decValue b.logicalTime ||
    (decValue a.logicalTime == decValue b.logicalTime &&
      (a.counter < b.counter ||
        (a.counter == b.counter && strLt a.nodeId b.nodeId)))

/-- Store whose oplog holds one entry at logical time 3. -/
def c3Store : PeerStore :=
  { documents := [], collections := []
    oplog := [{ collection := "c", key := "k", data := [], operation := "put"
                ts := ⟨"3", 0, "B"⟩ }] }

/-- C3 counterexample: a pull with since-timestamp (20, 0, A) returns the
entry stamped (3, 0, B) — the TEXT column comparison has '3' > '20'
bytewise — although 3 < 20 numerically, refuting the claim that every
returned entry is strictly greater than the request timestamp under the
numeric order. -/
theorem pull_returns_numerically_smaller_entry :
    handleSyncRequest c3Store ⟨"20", 0, "A"⟩ =
      [{ collection := "c", key := "k", data := [], operation := "put"
         ts := ⟨"3", 0, "B"⟩ }] ∧
    hlcLtNumeric ⟨"20", 0, "A"⟩ ⟨"3", 0, "B"⟩ = false := by
  decide

/-- C3 (amended): every pull response contains at most `limit` entries
(100 in the server handler, which passes no client batch size), every
returned entry is strictly greater than the request timestamp under the
*string-lexicographic* order the SQL actually computes (TEXT `logical_time`
bytewise, then `counter`, then TEXT `node_id`), and the entries are sorted
ascending under that order. -/
theorem pull_batch_bounded_and_sorted (s : PeerStore) (since : HLCTimestamp)
    (limit : Nat) (req : PullChangesRequest) :
    (s.getOplogAfter since limit).length ≤ limit ∧
    (∀ e ∈ s.getOplogAfter since limit, hlcLtB since e.ts = true) ∧
    (s.getOplogAfter since limit).Sorted oplogRowLe ∧
    handleSyncRequest s req =
      s.getOplogAfter ⟨req.sinceWall, req.sinceLogic, req.sinceNode⟩ 100 := by
  refine ⟨List.length_take_le _ _, ?_, ?_, rfl⟩
  · intro e he
    have h1 : e ∈ List.insertionSort oplogRowLe
        (s.oplog.filter (fun r => hlcLtB since r.ts)) :=
      List.mem_of_mem_take he
    have h2 : e ∈ s.oplog.filter (fun r => hlcLtB since r.ts) :=
      (List.perm_insertionSort oplogRowLe _).subset h1
    exact (List.mem_filter.mp h2).2
  · exact (List.sorted_insertionSort oplogRowLe _).sublist (List.take_sublist _ _)

/-! ### Sync orchestrator pull loop (packages/network/src/sync-orchestrator.ts,
`SyncOrchestrator.syncWithPeer`) -/

/-- Row order for `getLatestTimestamp`'s
`ORDER BY logical_time DESC, counter DESC LIMIT 1` (modelled as the last
element of the ascending sort; `node_id` does not participate). -/
def docLatestLe (a b : DocRow) : Prop :=
  (strLt a.ts.logicalTime b.ts.logicalTime ||
    (a.ts.logicalTime == b.ts.logicalTime &&
      decide (a.ts.counter ≤ b.ts.counter))) = true

instance decDocLatestLe : DecidableRel docLatestLe := fun a b =>
  instDecidableEqBool
    (strLt a.ts.logicalTime b.ts.logicalTime ||
      (a.ts.logicalTime == b.ts.logicalTime &&
        decide (a.ts.counter ≤ b.ts.counter))) true

/-- `SqlitePeerStore.getLatestTimestamp`: the timestamp of a document row
maximal under (logical_time, counter), or the empty stamp (0, 0, '') when
the `documents` table is empty. -/
def PeerStore.getLatestTimestamp (s : PeerStore) : HLCTimestamp :=
  match (List.insertionSort docLatestLe s.documents).getLast? with
  | none => ⟨"0", 0, ""⟩
  | some r => r.ts

/-- The old-path `SyncResponse` (`{entries, latestTimestamp, hasMore}`). -/
structure SyncResponse where
  entries : List OplogRow
  latestTimestamp : HLCTimestamp
  hasMore : Bool
deriving DecidableEq, Repr

/-- The old-path `TcpSyncServer.handleSyncRequest` (tcp-server.ts second
revision, lines 377-391): fetch `getOplogAfter(since, batchSize)` and set
`hasMore` iff the batch was filled to capacity.  The orchestrator always
requests `batchSize = 100` (`request.batchSize || 100`). -/
def handleSyncRequestOld (s : PeerStore) (since : HLCTimestamp) (batchSize : Nat) :
    SyncResponse :=
  let entries := s.getOplogAfter since batchSize
  { entries := entries, latestTimestamp := s.getLatestTimestamp
    hasMore := entries.length == batchSize }

/-- The `since` arguments of the successive `client.pullChanges(since, 100)`
calls issued by `SyncOrchestrator.syncWithPeer`: `since` is read once from
`store.getLatestTimestamp()` before the loop and **never reassigned**
inside `while (hasMore)`; the loop continues while the response's
`hasMore` is truthy.  `pull` abstracts the server's response; the clock
updates and `applyBatch` inside the loop touch only the local clock and
store, neither of which feeds back into the `since` argument, so they are
not tracked here.  `fuel` bounds the number of iterations observed. -/
def syncPullTrace (fuel : Nat) (since : HLCTimestamp)
    (pull : HLCTimestamp → SyncResponse) : List HLCTimestamp :=
  match fuel with
  | 0 => []
  | Nat.succ f =>
    let resp := pull since
    since :: (if resp.hasMore then syncPullTrace f since pull else [])

/-- Server store with 101 oplog entries stamped (5, 0, S) … (5, 100, S). -/
def c4ServerStore : PeerStore :=
  { documents := [], collections := []
    oplog := (List.range 101).map (fun i =>
      { collection := "c", key := "k", data := [], operation := "put"
        ts := ⟨"5", i, "S"⟩ }) }

/-- C4: the claim says every `pullChanges` call issued after a non-empty
batch uses the timestamp of the last entry of that batch as its `since`.
Against a server holding 101 entries, the first call (since = (0,0,''),
the empty store's latest timestamp) returns a full batch of 100 entries
ending at (5, 99, S) with `hasMore = true`, and the orchestrator's second
call reuses the *initial* since (0,0,'') — `since` is never reassigned —
rather than (5, 99, S). -/
theorem orchestrator_reuses_initial_since :
    syncPullTrace 2 emptyPeerStore.getLatestTimestamp
        (fun ts => handleSyncRequestOld c4ServerStore ts 100) =
      [emptyPeerStore.getLatestTimestamp, emptyPeerStore.getLatestTimestamp] ∧
    (handleSyncRequestOld c4ServerStore emptyPeerStore.getLatestTimestamp 100).hasMore
      = true ∧
    ((handleSyncRequestOld c4ServerStore emptyPeerStore.getLatestTimestamp 100).entries.getLast?.map
      (fun r => r.ts)) = some ⟨"5", 99, "S"⟩ ∧
    emptyPeerStore.getLatestTimestamp ≠ ⟨"5", 99, "S"⟩ := by
  decide

/-! ### Secure channel frame codec
(packages/network/src/secure-channel.ts: `SecureChannel.sendMessage` step 3
and the framing loop of `SecureChannel.handleData`) -/

/-- One wire frame: `[length: 4 LE][type: 1][compression: 1][payload]`,
where `length` counts only the payload bytes. -/
structure Frame where
  msgType : Nat
  comp : Nat
  payload : List Nat
deriving DecidableEq, Repr

/-- `Buffer.writeUInt32LE`: the four little-endian bytes of `n`. -/
def le32 (n : Nat) : List Nat :=
  [n % 256, (n / 256) % 256, (n / 65536) % 256, (n / 16777216) % 256]

/-- `Buffer.readUInt32LE` of four bytes. -/
def readLE32 (b0 b1 b2 b3 : Nat) : Nat :=
  b0 + 256 * b1 + 65536 * b2 + 16777216 * b3

/-- Step 3 of `SecureChannel.sendMessage`:
`[length (4 LE)][type][comp][payload]` (`Buffer.from([x])` keeps the low
byte of its argument, hence the `% 256`). -/
def encodeFrame (fr : Frame) : List Nat :=
  le32 fr.payload.length ++ [fr.msgType % 256, fr.comp % 256] ++ fr.payload

/-- A frame whose encoding is lossless: type and compression already
bytes, payload length within the 32-bit length field. -/
def Frame.CodecValid (fr : Frame) : Prop :=
  fr.msgType < 256 ∧ fr.comp < 256 ∧ fr.payload.length < 4294967296

/-- The framing loop of `SecureChannel.handleData`, fuelled: while the
buffer holds at least 4 bytes, read the little-endian payload length; stop
unless the buffer holds the whole `4 + 1 + 1 + payloadLength` frame;
otherwise split off `(type, comp, payload)` and advance the buffer.  A
buffer shorter than 6 bytes can never complete a frame, so the
under-6-byte wait cases collapse into the final catch-all.  Returns the
decoded frames and the retained buffer. -/
def decodeFramesGo : Nat → List Nat → List Frame × List Nat
  | 0, buf => ([], buf)
  | Nat.succ f, b0 :: b1 :: b2 :: b3 :: t :: c :: tail =>
    if readLE32 b0 b1 b2 b3 ≤ tail.length then
      let ms := decodeFramesGo f (tail.drop (readLE32 b0 b1 b2 b3))
      (⟨t, c, tail.take (readLE32 b0 b1 b2 b3)⟩ :: ms.1, ms.2)
    else
      ([], b0 :: b1 :: b2 :: b3 :: t :: c :: tail)
  | Nat.succ _, buf => ([], buf)

/-- The framing loop with its canonical fuel (each extracted frame consumes
at least six bytes, so `buf.length` iterations always suffice). -/
def decodeFrames (buf : List Nat) : List Frame × List Nat :=
  decodeFramesGo buf.length buf

lemma decodeFramesGo_fuel {f1 f2 : Nat} {buf : List Nat}
    (h1 : buf.length ≤ f1) (h2 : buf.length ≤ f2) :
    decodeFramesGo f1 buf = decodeFramesGo f2 buf := by
  induction f1 generalizing f2 buf with
  | zero =>
    have : buf = [] := List.eq_nil_of_length_eq_zero (Nat.le_zero.mp h1)
    subst this
    cases f2 with
    | zero => rfl
    | succ g => rfl
  | succ f ih =>
    cases f2 with
    | zero =>
      have : buf = [] := List.eq_nil_of_length_eq_zero (Nat.le_zero.mp h2)
      subst this
      rfl
    | succ g =>
      match buf with
      | [] => rfl
      | [a] => rfl
      | [a, b] => rfl
      | [a, b, c] => rfl
      | [a, b, c, d] => rfl
      | [a, b, c, d, e] => rfl
      | b0 :: b1 :: b2 :: b3 :: t :: c :: tail =>
        simp only [decodeFramesGo]
        split
        case isTrue hle =>
          have hlen : (tail.drop (readLE32 b0 b1 b2 b3)).length ≤ f := by
            simp only [List.length_cons] at h1
            have := List.length_drop (readLE32 b0 b1 b2 b3) tail
            omega
          have hlen2 : (tail.drop (readLE32 b0 b1 b2 b3)).length ≤ g := by
            simp only [List.length_cons] at h2
            have := List.length_drop (readLE32 b0 b1 b2 b3) tail
            omega
          rw [ih hlen hlen2]
        case isFalse => rfl

lemma decodeFrames_stuck_of_short {buf : List Nat} (h : buf.length < 6) :
    decodeFrames buf = ([], buf) := by
  match buf with
  | [] => rfl
  | [a] => rfl
  | [a, b] => rfl
  | [a, b, c] => rfl
  | [a, b, c, d] => rfl
  | [a, b, c, d, e] => rfl
  | a :: b :: c :: d :: e :: f :: tail =>
    exact absurd h (by simp only [List.length_cons]; omega)

lemma remainder_stuck : ∀ (f : Nat) (buf : List Nat), buf.length ≤ f →
    decodeFrames (decodeFramesGo f buf).2 = ([], (decodeFramesGo f buf).2) := by
  intro f
  induction f with
  | zero =>
    intro buf h
    have : buf = [] := List.eq_nil_of_length_eq_zero (Nat.le_zero.mp h)
    subst this
    rfl
  | succ f ih =>
    intro buf h
    match buf with
    | [] => rfl
    | [a] => rfl
    | [a, b] => rfl
    | [a, b, c] => rfl
    | [a, b, c, d] => rfl
    | [a, b, c, d, e] => rfl
    | b0 :: b1 :: b2 :: b3 :: t :: c :: tail =>
      simp only [decodeFramesGo]
      split
      case isTrue hle =>
        apply ih
        simp only [List.length_cons] at h
        have := List.length_drop (readLE32 b0 b1 b2 b3) tail
        omega
      case isFalse hgt =>
        show decodeFrames (b0 :: b1 :: b2 :: b3 :: t :: c :: tail) = _
        unfold decodeFrames
        simp only [List.length_cons, decodeFramesGo]
        rw [if_neg hgt]

lemma decodeFrames_cons_step {b0 b1 b2 b3 t c : Nat} {tail : List Nat}
    (hle : readLE32 b0 b1 b2 b3 ≤ tail.length) :
    decodeFrames (b0 :: b1 :: b2 :: b3 :: t :: c :: tail) =
      (⟨t, c, tail.take (readLE32 b0 b1 b2 b3)⟩ ::
        (decodeFrames (tail.drop (readLE32 b0 b1 b2 b3))).1,
       (decodeFrames (tail.drop (readLE32 b0 b1 b2 b3))).2) := by
  unfold decodeFrames
  have hlen : (b0 :: b1 :: b2 :: b3 :: t :: c :: tail).length = tail.length + 6 := by
    simp only [List.length_cons]
  have hbig : (b0 :: b1 :: b2 :: b3 :: t :: c :: tail).length ≤ tail.length + 6 :=
    le_of_eq hlen
  rw [decodeFramesGo_fuel (Nat.le_refl _) hbig]
  show decodeFramesGo (Nat.succ (tail.length + 5)) _ = _
  simp only [decodeFramesGo]
  rw [if_pos hle]
  have hdrop : (tail.drop (readLE32 b0 b1 b2 b3)).length ≤ tail.length + 5 := by
    have := List.length_drop (readLE32 b0 b1 b2 b3) tail
    omega
  rw [decodeFramesGo_fuel hdrop (Nat.le_refl _)]

lemma decodeFrames_append : ∀ (f : Nat) (buf extra : List Nat), buf.length ≤ f →
    decodeFrames (buf ++ extra) =
      ((decodeFramesGo f buf).1 ++
        (decodeFrames ((decodeFramesGo f buf).2 ++ extra)).1,
       (decodeFrames ((decodeFramesGo f buf).2 ++ extra)).2) := by
  intro f
  induction f with
  | zero =>
    intro buf extra h
    have : buf = [] := List.eq_nil_of_length_eq_zero (Nat.le_zero.mp h)
    subst this
    simp [decodeFramesGo]
  | succ f ih =>
    intro buf extra h
    match buf with
    | [] => simp [decodeFramesGo]
    | [a] => simp [decodeFramesGo]
    | [a, b] => simp [decodeFramesGo]
    | [a, b, c] => simp [decodeFramesGo]
    | [a, b, c, d] => simp [decodeFramesGo]
    | [a, b, c, d, e] => simp [decodeFramesGo]
    | b0 :: b1 :: b2 :: b3 :: t :: c :: tail =>
      by_cases hle : readLE32 b0 b1 b2 b3 ≤ tail.length
      · have hdroplen : (tail.drop (readLE32 b0 b1 b2 b3)).length ≤ f := by
          simp only [List.length_cons] at h
          have := List.length_drop (readLE32 b0 b1 b2 b3) tail
          omega
        have hstep :
            decodeFramesGo (Nat.succ f) (b0 :: b1 :: b2 :: b3 :: t :: c :: tail) =
              (⟨t, c, tail.take (readLE32 b0 b1 b2 b3)⟩ ::
                (decodeFramesGo f (tail.drop (readLE32 b0 b1 b2 b3))).1,
               (decodeFramesGo f (tail.drop (readLE32 b0 b1 b2 b3))).2) := by
          simp only [decodeFramesGo]
          rw [if_pos hle]
        have hleApp : readLE32 b0 b1 b2 b3 ≤ (tail ++ extra).length := by
          rw [List.length_append]
          omega
        have e1 : (b0 :: b1 :: b2 :: b3 :: t :: c :: tail) ++ extra =
            b0 :: b1 :: b2 :: b3 :: t :: c :: (tail ++ extra) := by
          simp
        rw [e1, decodeFrames_cons_step hleApp,
          List.take_append_of_le_length hle, List.drop_append_of_le_length hle,
          hstep]
        rw [ih (tail.drop (readLE32 b0 b1 b2 b3)) extra hdroplen]
        simp
      · have hstep :
            decodeFramesGo (Nat.succ f) (b0 :: b1 :: b2 :: b3 :: t :: c :: tail) =
              ([], b0 :: b1 :: b2 :: b3 :: t :: c :: tail) := by
          simp only [decodeFramesGo]
          rw [if_neg hle]
        rw [hstep]
        simp

lemma decodeFrames_encode_flatten (frames : List Frame)
    (h : ∀ fr ∈ frames, fr.CodecValid) :
    decodeFrames (frames.map encodeFrame).flatten = (frames, []) := by
  induction frames with
  | nil => rfl
  | cons fr rest ih =>
    obtain ⟨ht, hc, hlen⟩ := h fr (List.mem_cons_self fr rest)
    have hread : readLE32 (fr.payload.length % 256) (fr.payload.length / 256 % 256)
        (fr.payload.length / 65536 % 256) (fr.payload.length / 16777216 % 256) =
        fr.payload.length := by
      unfold readLE32
      omega
    have hshape : ((fr :: rest).map encodeFrame).flatten =
        (fr.payload.length % 256) :: (fr.payload.length / 256 % 256) ::
        (fr.payload.length / 65536 % 256) :: (fr.payload.length / 16777216 % 256) ::
        (fr.msgType % 256) :: (fr.comp % 256) ::
        (fr.payload ++ (rest.map encodeFrame).flatten) := by
      simp [encodeFrame, le32]
    have hle : readLE32 (fr.payload.length % 256) (fr.payload.length / 256 % 256)
        (fr.payload.length / 65536 % 256) (fr.payload.length / 16777216 % 256) ≤
        (fr.payload ++ (rest.map encodeFrame).flatten).length := by
      rw [hread, List.length_append]
      omega
    rw [hshape, decodeFrames_cons_step hle, hread,
      List.take_left' rfl, List.drop_left' rfl,
      ih (fun x hx => h x (List.mem_cons_of_mem fr hx))]
    have hfr : (⟨fr.msgType % 256, fr.comp % 256, fr.payload⟩ : Frame) = fr := by
      obtain ⟨t1, c1, p1⟩ := fr
      simp only [Frame.mk.injEq]
      simp only at ht hc
      exact ⟨Nat.mod_eq_of_lt ht, Nat.mod_eq_of_lt hc, trivial⟩
    rw [hfr]

/-- One `data` event of `SecureChannel.handleData`: append the chunk to the
retained buffer and drain every complete frame. -/
def feedStep (acc : List Frame × List Nat) (chunk : List Nat) :
    List Frame × List Nat :=
  let res := decodeFrames (acc.2 ++ chunk)
  (acc.1 ++ res.1, res.2)

/-- A fresh channel fed a sequence of socket chunks: all decoded frames in
order, together with the retained buffer. -/
def feedChunks (chunks : List (List Nat)) : List Frame × List Nat :=
  chunks.foldl feedStep ([], [])

lemma feedChunks_foldl (chunks : List (List Nat)) (ms : List Frame) (r : List Nat)
    (hr : decodeFrames r = ([], r)) :
    chunks.foldl feedStep (ms, r) =
      (ms ++ (decodeFrames (r ++ chunks.flatten)).1,
       (decodeFrames (r ++ chunks.flatten)).2) := by
  induction chunks generalizing ms r with
  | nil =>
    simp only [List.foldl_nil, List.flatten_nil, List.append_nil, hr]
  | cons chunk rest ih =>
    simp only [List.foldl_cons, List.flatten_cons]
    have hstep : feedStep (ms, r) chunk =
        (ms ++ (decodeFrames (r ++ chunk)).1, (decodeFrames (r ++ chunk)).2) := rfl
    rw [hstep]
    have hrem : decodeFrames ((decodeFrames (r ++ chunk)).2) =
        ([], (decodeFrames (r ++ chunk)).2) :=
      remainder_stuck (r ++ chunk).length (r ++ chunk) (Nat.le_refl _)
    rw [ih _ _ hrem]
    have happ : decodeFrames ((r ++ chunk) ++ rest.flatten) =
        ((decodeFrames (r ++ chunk)).1 ++
          (decodeFrames ((decodeFrames (r ++ chunk)).2 ++ rest.flatten)).1,
         (decodeFrames ((decodeFrames (r ++ chunk)).2 ++ rest.flatten)).2) :=
      decodeFrames_append (r ++ chunk).length (r ++ chunk) rest.flatten (Nat.le_refl _)
    rw [← List.append_assoc, happ]
    simp [List.append_assoc]

instance (fr : Frame) : Decidable fr.CodecValid :=
  instDecidableAnd

/-- C7: for every list of frames with byte-valued type and compression and
a payload shorter than 2^32 (including the empty payload), encoding each
frame as `[4-byte LE payload length][type][compression][payload]` and
feeding the concatenated bytes to the receiving decoder in arbitrary
chunks yields exactly the original (type, compression, payload) triples in
order, with nothing left in the buffer. -/
theorem frame_codec_roundtrip (frames : List Frame) (chunks : List (List Nat))
    (hv : ∀ fr ∈ frames, fr.CodecValid)
    (hc : chunks.flatten = (frames.map encodeFrame).flatten) :
    feedChunks chunks = (frames, []) := by
  unfold feedChunks
  rw [feedChunks_foldl chunks [] [] rfl]
  simp only [List.nil_append, hc]
  rw [decodeFrames_encode_flatten frames hv]

/-- Witness for C7: two frames — one compressed-flag frame with two payload
bytes, one empty-payload frame — split into chunks that straddle every
boundary. -/
theorem frame_codec_roundtrip_witness :
    feedChunks [[2, 0], [0, 0, 1], [1, 7], [8, 0, 0], [0, 0, 9, 0]] =
      ([⟨1, 1, [7, 8]⟩, ⟨9, 0, []⟩], []) :=
  frame_codec_roundtrip [⟨1, 1, [7, 8]⟩, ⟨9, 0, []⟩]
    [[2, 0], [0, 0, 1], [1, 7], [8, 0, 0], [0, 0, 9, 0]]
    (by decide) (by decide)

/-! ### Secure channel frame processing and error isolation
(`SecureChannel.handleData`, the try/catch around each decoded frame) -/

/-- Outcome of processing one decoded frame: either the inner message was
delivered to `onMessage` (which returned normally), or the `catch` block
ran and reported the error through `onError`. -/
inductive ChannelEvent where
  | delivered (msgType : Nat) (payload : List Nat)
  | errored
deriving DecidableEq, Repr

/-- Processing of one decoded frame, parameterized over the cryptographic
and callback collaborators:

* `hasCipher` — whether `setCipherState` was called;
* `decrypt` — `SecureEnvelope.fromBinary` followed by
  `CryptoHelper.decrypt` with the channel's decrypt key: `none` models a
  thrown error (envelope parse failure, HMAC mismatch, decryption
  failure), `some` the decrypted inner bytes;
* `decompress` — `CompressionHelper.decompress`, `none` modelling a throw;
* `handler` — the `onMessage` callback, `false` modelling a throw.

Mirrors the source order: a type-9 frame requires a cipher state, is
decrypted, must hold at least 2 inner bytes, and honours the inner
compression flag; any other type honours the outer compression flag; every
thrown error is caught and reported via `onError` without closing the
socket. -/
def processFrame (hasCipher : Bool) (decrypt : List Nat → Option (List Nat))
    (decompress : List Nat → Option (List Nat)) (handler : Nat → List Nat → Bool)
    (fr : Frame) : ChannelEvent :=
  if fr.msgType == 9 then
    if !hasCipher then ChannelEvent.errored
    else
      match decrypt fr.payload with
      | none => ChannelEvent.errored
      | some decrypted =>
        match decrypted with
        | innerType :: innerComp :: innerPayload =>
          if innerComp == 1 then
            match decompress innerPayload with
            | none => ChannelEvent.errored
            | some p =>
              if handler innerType p then ChannelEvent.delivered innerType p
              else ChannelEvent.errored
          else
            if handler innerType innerPayload then
              ChannelEvent.delivered innerType innerPayload
            else ChannelEvent.errored
        | _ => ChannelEvent.errored
  else
    if fr.comp == 1 then
      match decompress fr.payload with
      | none => ChannelEvent.errored
      | some p =>
        if handler fr.msgType p then ChannelEvent.delivered fr.msgType p
        else ChannelEvent.errored
    else
      if handler fr.msgType fr.payload then
        ChannelEvent.delivered fr.msgType fr.payload
      else ChannelEvent.errored

/-- The full `handleData` loop, fuelled: frames are split off exactly as in
`decodeFramesGo` — the buffer is advanced *before* the `try` — and each
frame is processed inside the try/catch.  The third component records
whether the loop ever closed the socket (the catch block only calls
`onError`, so it never does). -/
def channelRunGo (hasCipher : Bool) (decrypt : List Nat → Option (List Nat))
    (decompress : List Nat → Option (List Nat)) (handler : Nat → List Nat → Bool) :
    Nat → List Nat → List ChannelEvent × List Nat × Bool
  | 0, buf => ([], buf, false)
  | Nat.succ f, b0 :: b1 :: b2 :: b3 :: t :: c :: tail =>
    if readLE32 b0 b1 b2 b3 ≤ tail.length then
      let ev := processFrame hasCipher decrypt decompress handler
        ⟨t, c, tail.take (readLE32 b0 b1 b2 b3)⟩
      let rest := channelRunGo hasCipher decrypt decompress handler f
        (tail.drop (readLE32 b0 b1 b2 b3))
      (ev :: rest.1, rest.2.1, rest.2.2)
    else
      ([], b0 :: b1 :: b2 :: b3 :: t :: c :: tail, false)
  | Nat.succ _, buf => ([], buf, false)

/-- One `handleData` invocation with its canonical fuel. -/
def channelRun (hasCipher : Bool) (decrypt : List Nat → Option (List Nat))
    (decompress : List Nat → Option (List Nat)) (handler : Nat → List Nat → Bool)
    (buf : List Nat) : List ChannelEvent × List Nat × Bool :=
  channelRunGo hasCipher decrypt decompress handler buf.length buf

/-- One socket `data` event on a live channel: run `handleData` on the
retained buffer plus the chunk, appending events and or-ing the
socket-closed flags. -/
def channelStep (hasCipher : Bool) (decrypt : List Nat → Option (List Nat))
    (decompress : List Nat → Option (List Nat)) (handler : Nat → List Nat → Bool)
    (acc : List ChannelEvent × List Nat × Bool) (chunk : List Nat) :
    List ChannelEvent × List Nat × Bool :=
  let res := channelRun hasCipher decrypt decompress handler (acc.2.1 ++ chunk)
  (acc.1 ++ res.1, res.2.1, acc.2.2 || res.2.2)

/-- A channel fed a sequence of socket chunks, accumulating the emitted
events and or-ing the socket-closed flags. -/
def channelFeed (hasCipher : Bool) (decrypt : List Nat → Option (List Nat))
    (decompress : List Nat → Option (List Nat)) (handler : Nat → List Nat → Bool)
    (chunks : List (List Nat)) : List ChannelEvent × List Nat × Bool :=
  chunks.foldl (channelStep hasCipher decrypt decompress handler) ([], [], false)

lemma channelRunGo_eq_decode (hasCipher : Bool)
    (decrypt : List Nat → Option (List Nat))
    (decompress : List Nat → Option (List Nat))
    (handler : Nat → List Nat → Bool) :
    ∀ (f : Nat) (buf : List Nat),
    channelRunGo hasCipher decrypt decompress handler f buf =
      ((decodeFramesGo f buf).1.map
        (processFrame hasCipher decrypt decompress handler),
       (decodeFramesGo f buf).2, false) := by
  intro f
  induction f with
  | zero => intro buf; rfl
  | succ f ih =>
    intro buf
    match buf with
    | [] => rfl
    | [a] => rfl
    | [a, b] => rfl
    | [a, b, c] => rfl
    | [a, b, c, d] => rfl
    | [a, b, c, d, e] => rfl
    | b0 :: b1 :: b2 :: b3 :: t :: c :: tail =>
      simp only [channelRunGo, decodeFramesGo]
      split
      case isTrue hle => rw [ih]; rfl
      case isFalse => rfl

/-- C10: feeding any chunk sequence to a `SecureChannel`, the emitted event
sequence has exactly one event per complete frame — each frame's outcome
(`delivered` to `onMessage`, or `errored` via `onError` when a
SECURE_ENVELOPE arrives without cipher state, decryption or HMAC
verification fails, the decrypted inner payload is shorter than 2 bytes,
decompression fails, or the handler throws) is a function of that frame
alone, so every later complete frame is still decoded and delivered — the
channel never closes the socket itself, and its retained buffer is
exactly the framing remainder. -/
theorem channel_error_isolation (hasCipher : Bool)
    (decrypt : List Nat → Option (List Nat))
    (decompress : List Nat → Option (List Nat))
    (handler : Nat → List Nat → Bool) (chunks : List (List Nat)) :
    channelFeed hasCipher decrypt decompress handler chunks =
      ((feedChunks chunks).1.map
        (processFrame hasCipher decrypt decompress handler),
       (feedChunks chunks).2, false) := by
  unfold channelFeed feedChunks
  have main : ∀ (cs : List (List Nat)) (evs : List ChannelEvent)
      (ms : List Frame) (r : List Nat), evs = ms.map
        (processFrame hasCipher decrypt decompress handler) →
      cs.foldl (channelStep hasCipher decrypt decompress handler) (evs, r, false) =
      ((cs.foldl feedStep (ms, r)).1.map
        (processFrame hasCipher decrypt decompress handler),
       (cs.foldl feedStep (ms, r)).2, false) := by
    intro cs
    induction cs with
    | nil =>
      intro evs ms r hev
      simp only [List.foldl_nil, hev]
    | cons chunk rest ih =>
      intro evs ms r hev
      simp only [List.foldl_cons]
      have hrun : channelRun hasCipher decrypt decompress handler (r ++ chunk) =
          ((decodeFrames (r ++ chunk)).1.map
            (processFrame hasCipher decrypt decompress handler),
           (decodeFrames (r ++ chunk)).2, false) :=
        channelRunGo_eq_decode hasCipher decrypt decompress handler
          (r ++ chunk).length (r ++ chunk)
      have hstep : channelStep hasCipher decrypt decompress handler (evs, r, false) chunk =
          (evs ++ (decodeFrames (r ++ chunk)).1.map
            (processFrame hasCipher decrypt decompress handler),
           (decodeFrames (r ++ chunk)).2, false) := by
        show (evs ++ (channelRun hasCipher decrypt decompress handler (r ++ chunk)).1,
          (channelRun hasCipher decrypt decompress handler (r ++ chunk)).2.1,
          false || (channelRun hasCipher decrypt decompress handler (r ++ chunk)).2.2) = _
        rw [hrun]
        simp
      rw [hstep]
      have hfeed : feedStep (ms, r) chunk =
          (ms ++ (decodeFrames (r ++ chunk)).1, (decodeFrames (r ++ chunk)).2) := rfl
      rw [hfeed]
      exact ih _ _ _ (by rw [hev, List.map_append])
  exact main chunks [] [] [] rfl

/-! ### Gossip outbound path (packages/network/src/gossip/gossip-protocol.ts,
`GossipProtocol.processQueue` / `GossipProtocol.gossipToPeer`) -/

/-- A peer as held by the gossip protocol and the orchestrator. -/
structure PeerInfo where
  nodeId : String
  host : String
  port : Nat
deriving DecidableEq, Repr

/-- A queued gossip message. -/
structure GossipMessage where
  entries : List OplogEntry
  sourceNodeId : String
  hops : Nat
  messageId : String
deriving DecidableEq, Repr

/-- The `PushRequest` value built inside `gossipToPeer`. -/
structure PushRequest where
  entries : List OplogEntry
deriving DecidableEq, Repr

/-- An observable operation on the `TcpSyncClient` a gossip send uses. -/
inductive ClientAction where
  | connect (host : String) (port : Nat)
  | sendPush (entries : List OplogEntry)
  | disconnect
deriving DecidableEq, Repr

/-- Whether an action transmits a push request. -/
def ClientAction.isSend : ClientAction → Bool
  | ClientAction.sendPush _ => true
  | _ => false

/-- `GossipProtocol.gossipToPeer`: constructs a `TcpSyncClient`, awaits
`connect`, builds a `PushRequest` from the message entries (the dead
`request` local — the source comment reads "We'd need to extend
TcpSyncClient to support custom push"), then calls `disconnect`.  Nothing
is ever written to the connection.  Returns the constructed request and
the success-path action trace (a connect failure takes the catch block and
also sends nothing). -/
def gossipToPeer (peer : PeerInfo) (message : GossipMessage) :
    PushRequest × List ClientAction :=
  (⟨message.entries⟩,
   [ClientAction.connect peer.host peer.port, ClientAction.disconnect])

/-- One dequeue step of `GossipProtocol.processQueue`: after the damping
delay, `gossipToPeer` runs for every current peer whose `nodeId` differs
from the message's `sourceNodeId` (failures isolated per peer by
`Promise.allSettled`). -/
def processQueueStep (peers : List PeerInfo) (message : GossipMessage) :
    List (PeerInfo × List ClientAction) :=
  (peers.filter (fun p => p.nodeId != message.sourceNodeId)).map
    (fun p => (p, (gossipToPeer p message).2))

/-- C8: the claim requires a `PushChangesRequest`
carrying the message's entries to be sent to every non-source peer before
the connection is disconnected.  For every dequeued message and every such
peer, the trace the code produces is `[connect, disconnect]`: it contains
no send action at all, and its last action is the disconnect — the
outbound gossip path builds the request but never transmits it. -/
theorem gossip_never_sends_push (peers : List PeerInfo) (message : GossipMessage) :
    ∀ pt ∈ processQueueStep peers message,
      pt.2 = [ClientAction.connect pt.1.host pt.1.port, ClientAction.disconnect] ∧
      (∀ a ∈ pt.2, a.isSend = false) ∧
      pt.2.getLast? = some ClientAction.disconnect := by
  intro pt hpt
  obtain ⟨p, hp, hmap⟩ := List.mem_map.mp hpt
  subst hmap
  refine ⟨rfl, ?_, rfl⟩
  intro a ha
  rcases List.mem_cons.mp ha with h | h
  · subst h; rfl
  · rcases List.mem_singleton.mp h with h1
    subst h1; rfl

/-- Witness for the C8 theorem: two peers, a message sourced at the first;
the second peer's trace is connect-then-disconnect with no send. -/
theorem gossip_never_sends_push_witness :
    ((⟨"B", "h2", 2⟩, [ClientAction.connect "h2" 2, ClientAction.disconnect]) :
        PeerInfo × List ClientAction).2 =
      [ClientAction.connect (⟨"B", "h2", 2⟩ : PeerInfo).host
        (⟨"B", "h2", 2⟩ : PeerInfo).port, ClientAction.disconnect] ∧
    (∀ a ∈ ((⟨"B", "h2", 2⟩, [ClientAction.connect "h2" 2, ClientAction.disconnect]) :
        PeerInfo × List ClientAction).2, a.isSend = false) ∧
    ((⟨"B", "h2", 2⟩, [ClientAction.connect "h2" 2, ClientAction.disconnect]) :
        PeerInfo × List ClientAction).2.getLast? = some ClientAction.disconnect :=
  gossip_never_sends_push [⟨"A", "h1", 1⟩, ⟨"B", "h2", 2⟩] ⟨[], "A", 0, "m1"⟩
    (⟨"B", "h2", 2⟩, [ClientAction.connect "h2" 2, ClientAction.disconnect])
    (by decide)

/-! ### Recursive merge resolver, array handling
(packages/core/src/sync/recursive-merge-resolver.ts:
`mergeArrays`, `hasObjects`, `mapById`, with `mergeJson` recursion) -/

/-- `getType`: 'null' for null/undefined, 'array' for arrays, otherwise
the JavaScript `typeof`. -/
def jsType : Json → String
  | Json.null => "null"
  | Json.arr _ => "array"
  | Json.obj _ => "object"
  | Json.bool _ => "boolean"
  | Json.num _ => "number"
  | Json.str _ => "string"

mutual
/-- JavaScript `String(v)` for a JSON value: primitives spell themselves,
plain objects give '[object Object]', arrays join their elements with
commas (numbers modelled as integers). -/
def jsToString : Json → String
  | Json.null => "null"
  | Json.bool true => "true"
  | Json.bool false => "false"
  | Json.num n => toString n
  | Json.str s => s
  | Json.obj _ => "[object Object]"
  | Json.arr items => String.intercalate "," (jsToStringList items)

def jsToStringList : List Json → List String
  | [] => []
  | x :: xs => jsToString x :: jsToStringList xs
end

/-- The identifier `mapById` reads off one array element: `String(item.id)`
if the object has an `id` field, else `String(item._id)` if it has `_id`,
else none; non-objects have none. -/
def idOfItem (x : Json) : Option String :=
  match x with
  | Json.obj fields =>
    match List.lookup "id" fields with
    | some v => some (jsToString v)
    | none =>
      match List.lookup "_id" fields with
      | some v => some (jsToString v)
      | none => none
  | _ => none

/-- The element identifier as the string key it contributes ('' when
absent; '' ids are rejected by `mapById` anyway). -/
def itemIdStr (x : Json) : String :=
  (idOfItem x).getD ""

/-- `hasObjects`: false for the empty array, else whether the *first*
element is an object. -/
def hasObjects : List Json → Bool
  | [] => false
  | x :: _ => jsType x == "object"

/-- The loop of `mapById`, with the map built so far: every element must
be an object with a truthy (non-empty) id that is not yet in the map,
otherwise the whole call returns null. -/
def mapByIdGo (acc : List (String × Json)) : List Json → Option (List (String × Json))
  | [] => some acc
  | item :: rest =>
    if jsType item != "object" then none
    else
      match idOfItem item with
      | none => none
      | some i =>
        if i == "" then none
        else if acc.any (fun kv => kv.1 == i) then none
        else mapByIdGo (acc ++ [(i, item)]) rest

/-- `mapById`: a Map from coerced id to element (insertion order), or null
when some element is not an object, lacks a truthy id, or repeats one. -/
def mapById (arr : List Json) : Option (List (String × Json)) :=
  mapByIdGo [] arr

/-- The first loop of `mergeArrays`, with the element merge abstracted:
each local-map entry is merged with the remote entry of the same id when
one exists and kept as-is otherwise. -/
def mergeByIdWith (mj : Json → Json → Json) :
    List (String × Json) → List (String × Json) → List Json
  | [], _ => []
  | (i, lv) :: rest, rm =>
    match List.lookup i rm with
    | some rv => mj lv rv :: mergeByIdWith mj rest rm
    | none => lv :: mergeByIdWith mj rest rm

/-- The body of the source `mergeArrays`, with the recursive `mergeJson`
call abstracted as `mj` and the LWW comparison outcome
(`compareTimestamps(remoteTs, localTs) > 0`) as `remoteWins`. -/
def mergeArraysWith (mj : Json → Json → Json) (remoteWins : Bool)
    (la ra : List Json) : List Json :=
  if hasObjects la == false || hasObjects ra == false then
    (if remoteWins then ra else la)
  else
    match mapById la, mapById ra with
    | some lm, some rm =>
      mergeByIdWith mj lm rm ++
        (rm.filter (fun kv => !(lm.any (fun kv2 => kv2.1 == kv.1)))).map Prod.snd
    | _, _ => (if remoteWins then ra else la)

/-- The first loop of the source `mergeObjects`: local keys in order,
merged recursively on collision, kept as-is otherwise. -/
def mergeFieldsWith (mj : Json → Json → Json) :
    List (String × Json) → List (String × Json) → List (String × Json)
  | [], _ => []
  | (k, lv) :: rest, rf =>
    match List.lookup k rf with
    | some rv => (k, mj lv rv) :: mergeFieldsWith mj rest rf
    | none => (k, lv) :: mergeFieldsWith mj rest rf

/-- The second loop of `mergeObjects`: remote keys not among the local
(processed) keys, in remote order. -/
def remoteOnlyFields (lf rf : List (String × Json)) : List (String × Json) :=
  rf.filter (fun kv => (List.lookup kv.1 lf).isNone)

/-- `mergeJson`, fuelled (the source recursion is bounded by the JSON
depth; every theorem quantifies over the fuel, and fuel 0 — never reached
from a sufficient start value — returns the local value):
type mismatch → LWW pick; objects → field-wise merge with remote-only
fields appended; arrays → `mergeArrays`; primitives → keep equal values,
else LWW pick. -/
def mergeJsonF (fuel : Nat) (localV : Json) (localTs : HLCTimestamp)
    (remoteV : Json) (remoteTs : HLCTimestamp) : Json :=
  match fuel with
  | 0 => localV
  | Nat.succ f =>
    let remoteWins := decide (0 < compareTimestampsWallTime remoteTs localTs)
    if jsType localV != jsType remoteV then
      (if remoteWins then remoteV else localV)
    else
      match localV, remoteV with
      | Json.obj lf, Json.obj rf =>
        Json.obj (mergeFieldsWith (fun lv rv => mergeJsonF f lv localTs rv remoteTs) lf rf ++
          remoteOnlyFields lf rf)
      | Json.arr la, Json.arr ra =>
        Json.arr (mergeArraysWith (fun lv rv => mergeJsonF f lv localTs rv remoteTs)
          remoteWins la ra)
      | Json.null, Json.null => localV
      | Json.bool x, Json.bool y =>
        if x == y then localV else (if remoteWins then remoteV else localV)
      | Json.num x, Json.num y =>
        if x == y then localV else (if remoteWins then remoteV else localV)
      | Json.str x, Json.str y =>
        if x == y then localV else (if remoteWins then remoteV else localV)
      | _, _ => localV

/-- `RecursiveNodeMergeConflictResolver.mergeArrays` with fuel `f` feeding
the recursive element merges. -/
def mergeArrays (f : Nat) (la : List Json) (lts : HLCTimestamp)
    (ra : List Json) (rts : HLCTimestamp) : List Json :=
  mergeArraysWith (fun lv rv => mergeJsonF f lv lts rv rts)
    (decide (0 < compareTimestampsWallTime rts lts)) la ra

/-- The merge result the claim describes for the id-keyed case: local
elements in order, each merged with the remote element carrying the same
id when one exists; then the remote elements whose id no local element
carries, in remote order. -/
def pairwiseMergeSpec (mj : Json → Json → Json) (la ra : List Json) : List Json :=
  la.map (fun x =>
    match ra.find? (fun y => itemIdStr y == itemIdStr x) with
    | some y => mj x y
    | none => x) ++
  ra.filter (fun y => !(la.any (fun x => itemIdStr x == itemIdStr y)))

/-- The claim's precondition on the two arrays, including the conditions
the code actually needs: both non-empty, every element an object, every
element carrying a truthy (non-empty after coercion) `id` or `_id`, unique
within each array. -/
def ArrayMergeCond (la ra : List Json) : Prop :=
  la ≠ [] ∧ ra ≠ [] ∧
  (∀ x ∈ la ++ ra, jsType x = "object" ∧ idOfItem x ≠ none ∧ itemIdStr x ≠ "") ∧
  (la.map itemIdStr).Nodup ∧ (ra.map itemIdStr).Nodup

lemma idOfItem_eq_some {x : Json} (h : idOfItem x ≠ none) :
    idOfItem x = some (itemIdStr x) := by
  cases hx : idOfItem x with
  | none => exact absurd hx h
  | some i => simp [itemIdStr, hx]

lemma mapByIdGo_spec : ∀ (arr : List Json) (acc : List (String × Json)),
    (∀ x ∈ arr, jsType x = "object" ∧ idOfItem x ≠ none ∧ itemIdStr x ≠ "") →
    (acc.map Prod.fst ++ arr.map itemIdStr).Nodup →
    mapByIdGo acc arr = some (acc ++ arr.map (fun x => (itemIdStr x, x))) := by
  intro arr
  induction arr with
  | nil =>
    intro acc _ _
    simp [mapByIdGo]
  | cons item rest ih =>
    intro acc hcond hnodup
    obtain ⟨hobj, hidne, hidstr⟩ := hcond item (List.mem_cons_self item rest)
    have hi : idOfItem item = some (itemIdStr item) := idOfItem_eq_some hidne
    have hbne : (jsType item != "object") = false := by
      simp [hobj]
    have hempty : (itemIdStr item == "") = false := by
      simp [hidstr]
    have hnotin : itemIdStr item ∉ acc.map Prod.fst := by
      intro hmem
      have hdisj := List.disjoint_of_nodup_append hnodup
      exact hdisj hmem (by
        simp only [List.map_cons]
        exact List.mem_cons_self _ _)
    have hany : (acc.any (fun kv => kv.1 == itemIdStr item)) = false := by
      rw [List.any_eq_false]
      intro kv hkv
      simp only [Bool.not_eq_true, beq_eq_false_iff_ne, ne_eq]
      intro hEq
      exact hnotin (hEq ▸ List.mem_map_of_mem Prod.fst hkv)
    show mapByIdGo acc (item :: rest) = _
    rw [mapByIdGo]
    rw [hbne, hi]
    simp only [Bool.false_eq_true, if_false, hempty, hany]
    have hnodup2 : ((acc ++ [(itemIdStr item, item)]).map Prod.fst ++
        rest.map itemIdStr).Nodup := by
      simp only [List.map_append, List.map_cons, List.map_nil] at hnodup ⊢
      rw [List.append_assoc]
      simpa using hnodup
    rw [ih (acc ++ [(itemIdStr item, item)])
      (fun x hx => hcond x (List.mem_cons_of_mem item hx)) hnodup2]
    simp

lemma mapByIdGo_some_parts : ∀ (arr : List Json) (acc m : List (String × Json)),
    mapByIdGo acc arr = some m →
    (acc.map Prod.fst).Nodup →
    (∀ x ∈ arr, jsType x = "object" ∧ idOfItem x ≠ none ∧ itemIdStr x ≠ "") ∧
    (acc.map Prod.fst ++ arr.map itemIdStr).Nodup := by
  intro arr
  induction arr with
  | nil =>
    intro acc m _ hacc
    constructor
    · intro x hx
      exact absurd hx (List.not_mem_nil x)
    · simpa using hacc
  | cons item rest ih =>
    intro acc m hgo hacc
    rw [mapByIdGo] at hgo
    by_cases hobj : (jsType item != "object") = true
    · rw [if_pos hobj] at hgo
      exact absurd hgo (by simp)
    · rw [if_neg hobj] at hgo
      have hobj : jsType item = "object" := by
        simpa using hobj
      cases hid : idOfItem item with
      | none =>
        simp only [hid] at hgo
        exact absurd hgo (by simp)
      | some i =>
        simp only [hid] at hgo
        have histr : itemIdStr item = i := by simp [itemIdStr, hid]
        by_cases hemp : (i == "") = true
        · rw [if_pos hemp] at hgo
          exact absurd hgo (by simp)
        · rw [if_neg hemp] at hgo
          by_cases hany : (acc.any (fun kv => kv.1 == i)) = true
          · rw [if_pos hany] at hgo
            exact absurd hgo (by simp)
          · rw [if_neg hany] at hgo
            have hnotin : i ∉ acc.map Prod.fst := by
              intro hmem
              obtain ⟨kv, hkv, hfst⟩ := List.mem_map.mp hmem
              rw [Bool.not_eq_true, List.any_eq_false] at hany
              have h1 := hany kv hkv
              rw [Bool.not_eq_true, beq_eq_false_iff_ne] at h1
              exact h1 hfst
            have hacc2 : ((acc ++ [(i, item)]).map Prod.fst).Nodup := by
              simp only [List.map_append, List.map_cons, List.map_nil]
              rw [List.nodup_append]
              exact ⟨hacc, List.nodup_singleton _, by
                intro a ha
                simp only [List.mem_singleton]
                intro hEq
                exact hnotin (hEq ▸ ha)⟩
            obtain ⟨hrest, hnodup⟩ := ih (acc ++ [(i, item)]) m hgo hacc2
            constructor
            · intro x hx
              rcases List.mem_cons.mp hx with hx | hx
              · subst hx
                exact ⟨hobj, by simp [hid], by simp [histr]; simpa using hemp⟩
              · exact hrest x hx
            · simp only [List.map_append, List.map_cons, List.map_nil] at hnodup
              rw [List.append_assoc] at hnodup
              simp only [List.map_cons, histr]
              simpa using hnodup

lemma mergeByIdWith_map (mj : Json → Json → Json) (la : List Json)
    (rm : List (String × Json)) :
    mergeByIdWith mj (la.map (fun x => (itemIdStr x, x))) rm =
      la.map (fun x =>
        match List.lookup (itemIdStr x) rm with
        | some rv => mj x rv
        | none => x) := by
  induction la with
  | nil => rfl
  | cons x rest ih =>
    simp only [List.map_cons, mergeByIdWith]
    cases List.lookup (itemIdStr x) rm with
    | none => simp [ih]
    | some rv => simp [ih]

lemma lookup_pairing (ra : List Json) (i : String) :
    List.lookup i (ra.map (fun y => (itemIdStr y, y))) =
      ra.find? (fun y => itemIdStr y == i) := by
  induction ra with
  | nil => rfl
  | cons y rest ih =>
    simp only [List.map_cons, List.lookup, List.find?]
    by_cases h : i = itemIdStr y
    · simp [h]
    · have h1 : (i == itemIdStr y) = false := by simpa using h
      have h2 : (itemIdStr y == i) = false := by
        simp only [beq_eq_false_iff_ne, ne_eq]
        exact fun hEq => h hEq.symm
      rw [h1, h2]
      exact ih

lemma filter_pairing (la ra : List Json) :
    ((ra.map (fun y => (itemIdStr y, y))).filter
      (fun kv => !((la.map (fun x => (itemIdStr x, x))).any
        (fun kv2 => kv2.1 == kv.1)))).map Prod.snd =
    ra.filter (fun y => !(la.any (fun x => itemIdStr x == itemIdStr y))) := by
  induction ra with
  | nil => rfl
  | cons y rest ih =>
    simp only [List.map_cons, List.filter_cons]
    have hpred : ((la.map (fun x => (itemIdStr x, x))).any
        (fun kv2 => kv2.1 == itemIdStr y)) =
        la.any (fun x => itemIdStr x == itemIdStr y) := by
      clear ih
      induction la with
      | nil => rfl
      | cons z zs ihz => simp only [List.map_cons, List.any_cons, ihz]
    rw [hpred]
    cases la.any (fun x => itemIdStr x == itemIdStr y) with
    | true => simpa using ih
    | false => simpa using ih

/-- C9 counterexample: with an empty local array the claim's condition
("every element of both arrays is an object with a unique id") holds
vacuously, so the claim prescribes the pairwise merge, which appends the
remote-only element `{id:'1'}`; but `hasObjects([])` is false, so the code
falls back to LWW on the whole array and — the local timestamp winning —
returns the empty local array. -/
theorem merge_arrays_empty_local_drops_remote :
    mergeArrays 5 [] ⟨"100", 5, "A"⟩
      [Json.obj [("id", Json.str "1")]] ⟨"100", 3, "B"⟩ = [] ∧
    pairwiseMergeSpec
      (fun lv rv => mergeJsonF 5 lv ⟨"100", 5, "A"⟩ rv ⟨"100", 3, "B"⟩)
      [] [Json.obj [("id", Json.str "1")]] =
      [Json.obj [("id", Json.str "1")]] := by
  exact ⟨rfl, rfl⟩

/-- C9 (amended): when both arrays are non-empty and every element of both
is an object with a unique, truthy `id` or `_id` (coerced to string), the
merge is element-wise by that identifier — each local element merged via
`mergeJson` with the remote element of equal id when one exists — with
remote-only elements appended in remote order; in *every other* case
(either array empty, a non-object element, a missing or empty or duplicate
id) the whole array of the side winning the resolver's timestamp
comparison is taken, ties going to local. -/
theorem merge_arrays_pairwise_or_lww (f : Nat) (la ra : List Json)
    (lts rts : HLCTimestamp) :
    (ArrayMergeCond la ra →
      mergeArrays f la lts ra rts =
        pairwiseMergeSpec (fun lv rv => mergeJsonF f lv lts rv rts) la ra) ∧
    (¬ ArrayMergeCond la ra →
      mergeArrays f la lts ra rts =
        (if 0 < compareTimestampsWallTime rts lts then ra else la)) := by
  constructor
  · intro hcond
    obtain ⟨hlne, hrne, hall, hlnd, hrnd⟩ := hcond
    have hmapl : mapById la = some (la.map (fun x => (itemIdStr x, x))) := by
      apply mapByIdGo_spec la []
      · intro x hx
        exact hall x (List.mem_append_left ra hx)
      · simpa using hlnd
    have hmapr : mapById ra = some (ra.map (fun x => (itemIdStr x, x))) := by
      apply mapByIdGo_spec ra []
      · intro x hx
        exact hall x (List.mem_append_right la hx)
      · simpa using hrnd
    have hobjl : hasObjects la = true := by
      match la, hlne with
      | x :: rest, _ =>
        have := (hall x (List.mem_append_left ra (List.mem_cons_self x rest))).1
        simp [hasObjects, this]
    have hobjr : hasObjects ra = true := by
      match ra, hrne with
      | x :: rest, _ =>
        have := (hall x (List.mem_append_right la (List.mem_cons_self x rest))).1
        simp [hasObjects, this]
    have hcondBool : ((hasObjects la == false) || (hasObjects ra == false)) = false := by
      rw [hobjl, hobjr]
      rfl
    unfold mergeArrays mergeArraysWith
    simp only [hcondBool, Bool.false_eq_true, if_false, hmapl, hmapr]
    rw [mergeByIdWith_map]
    simp only [lookup_pairing]
    rw [filter_pairing]
    rfl
  · intro hncond
    have hlww : (if decide (0 < compareTimestampsWallTime rts lts) then ra else la) =
        (if 0 < compareTimestampsWallTime rts lts then ra else la) := by
      by_cases hp : 0 < compareTimestampsWallTime rts lts
      · rw [if_pos hp, if_pos (by simpa using hp)]
      · rw [if_neg hp, if_neg (by simpa using hp)]
    unfold mergeArrays mergeArraysWith
    by_cases hobjl : hasObjects la = true
    case neg =>
      have hfl : hasObjects la = false := by
        cases h : hasObjects la with
        | true => exact absurd h hobjl
        | false => rfl
      rw [hfl]
      simp only [beq_self_eq_true, Bool.true_or, if_true]
      exact hlww

    case pos =>
      by_cases hobjr : hasObjects ra = true
      case neg =>
        have hfr : hasObjects ra = false := by
          cases h : hasObjects ra with
          | true => exact absurd h hobjr
          | false => rfl
        rw [hobjl, hfr]
        simp only [beq_self_eq_true, Bool.or_true, if_true]
        exact hlww
      case pos =>
        have hcondBool : ((hasObjects la == false) || (hasObjects ra == false)) = false := by
          rw [hobjl, hobjr]
          rfl
        simp only [hcondBool, Bool.false_eq_true, if_false]
        cases hml : mapById la with
        | none => exact hlww
        | some lm =>
          cases hmr : mapById ra with
          | none => exact hlww
          | some rm =>
            exfalso
            apply hncond
            obtain ⟨hallL, hndL⟩ :=
              mapByIdGo_some_parts la [] lm hml (by simp)
            obtain ⟨hallR, hndR⟩ :=
              mapByIdGo_some_parts ra [] rm hmr (by simp)
            have hlne : la ≠ [] := by
              intro hEq
              rw [hEq] at hobjl
              exact absurd hobjl (by simp [hasObjects])
            have hrne : ra ≠ [] := by
              intro hEq
              rw [hEq] at hobjr
              exact absurd hobjr (by simp [hasObjects])
            refine ⟨hlne, hrne, ?_, by simpa using hndL, by simpa using hndR⟩
            intro x hx
            rcases List.mem_append.mp hx with hx | hx
            · exact hallL x hx
            · exact hallR x hx

/-- Witness for the amended C9 theorem: the spec's own scenario — local
tags `[{id:'1', v:1}]`, remote tags `[{id:'1', v:2}, {id:'2', v:9}]` with
the remote timestamp winning — satisfies the precondition, so the merge is
pairwise by id with the remote-only `{id:'2'}` element appended. -/
theorem merge_arrays_pairwise_or_lww_witness :
    mergeArrays 3
      [Json.obj [("id", Json.str "1"), ("v", Json.num 1)]]
      ⟨"100", 1, "A"⟩
      [Json.obj [("id", Json.str "1"), ("v", Json.num 2)],
       Json.obj [("id", Json.str "2"), ("v", Json.num 9)]]
      ⟨"100", 2, "B"⟩ =
      pairwiseMergeSpec
        (fun lv rv => mergeJsonF 3 lv ⟨"100", 1, "A"⟩ rv ⟨"100", 2, "B"⟩)
        [Json.obj [("id", Json.str "1"), ("v", Json.num 1)]]
        [Json.obj [("id", Json.str "1"), ("v", Json.num 2)],
         Json.obj [("id", Json.str "2"), ("v", Json.num 9)]] :=
  (merge_arrays_pairwise_or_lww 3
      [Json.obj [("id", Json.str "1"), ("v", Json.num 1)]]
      [Json.obj [("id", Json.str "1"), ("v", Json.num 2)],
       Json.obj [("id", Json.str "2"), ("v", Json.num 9)]]
      ⟨"100", 1, "A"⟩ ⟨"100", 2, "B"⟩).1
    (by
      refine ⟨by simp, by simp, ?_, ?_, ?_⟩
      · intro x hx
        rcases List.mem_append.mp hx with hx | hx <;>
          simp only [List.mem_singleton, List.mem_cons, List.not_mem_nil, or_false] at hx
        · subst hx
          exact ⟨rfl, by decide, by decide⟩
        · rcases hx with hx | hx <;> subst hx <;> exact ⟨rfl, by decide, by decide⟩
      · decide
      · decide)

end EntglDb
